import Mathlib

/-!
Verification of the datachains simulation (maidsafe/datachains_sim).

The definitions below are a shallow embedding of the Rust sources:
`src/chain.rs`, `src/node.rs`, `src/params.rs`, `src/prefix.rs` and
`src/section.rs`.  Machine integers (u8/u64) are modelled as `Nat` with
explicit `% 2 ^ w` where wrap-around matters; byte arrays are `List Nat`
with every entry below 256; `HashMap`s are association lists.
-/

namespace Datachains

/-! ### SHA3-256 (the `tiny_keccak::sha3_256` dependency of `chain.rs`)

A lane of the Keccak state is a 64-bit word, modelled as a `Nat` kept
below `2 ^ 64`.  The 25 lanes `s0 .. s24` hold `A[x, y]` at index
`x + 5 * y`. -/

structure KeccakState where
  s0 : Nat
  s1 : Nat
  s2 : Nat
  s3 : Nat
  s4 : Nat
  s5 : Nat
  s6 : Nat
  s7 : Nat
  s8 : Nat
  s9 : Nat
  s10 : Nat
  s11 : Nat
  s12 : Nat
  s13 : Nat
  s14 : Nat
  s15 : Nat
  s16 : Nat
  s17 : Nat
  s18 : Nat
  s19 : Nat
  s20 : Nat
  s21 : Nat
  s22 : Nat
  s23 : Nat
  s24 : Nat

/-- Rotate a 64-bit word left by `n` bits. -/
def rotl64 (x n : Nat) : Nat :=
  ((x <<< n) ||| (x >>> (64 - n))) % (2 ^ 64)

/-- One Keccak-f[1600] round: theta, rho, pi, chi, iota. -/
def keccakRound (rc : Nat) (t : KeccakState) : KeccakState :=
  let c0 := t.s0 ^^^ t.s5 ^^^ t.s10 ^^^ t.s15 ^^^ t.s20
  let c1 := t.s1 ^^^ t.s6 ^^^ t.s11 ^^^ t.s16 ^^^ t.s21
  let c2 := t.s2 ^^^ t.s7 ^^^ t.s12 ^^^ t.s17 ^^^ t.s22
  let c3 := t.s3 ^^^ t.s8 ^^^ t.s13 ^^^ t.s18 ^^^ t.s23
  let c4 := t.s4 ^^^ t.s9 ^^^ t.s14 ^^^ t.s19 ^^^ t.s24
  let d0 := c4 ^^^ rotl64 c1 1
  let d1 := c0 ^^^ rotl64 c2 1
  let d2 := c1 ^^^ rotl64 c3 1
  let d3 := c2 ^^^ rotl64 c4 1
  let d4 := c3 ^^^ rotl64 c0 1
  let a0 := t.s0 ^^^ d0
  let a1 := t.s1 ^^^ d1
  let a2 := t.s2 ^^^ d2
  let a3 := t.s3 ^^^ d3
  let a4 := t.s4 ^^^ d4
  let a5 := t.s5 ^^^ d0
  let a6 := t.s6 ^^^ d1
  let a7 := t.s7 ^^^ d2
  let a8 := t.s8 ^^^ d3
  let a9 := t.s9 ^^^ d4
  let a10 := t.s10 ^^^ d0
  let a11 := t.s11 ^^^ d1
  let a12 := t.s12 ^^^ d2
  let a13 := t.s13 ^^^ d3
  let a14 := t.s14 ^^^ d4
  let a15 := t.s15 ^^^ d0
  let a16 := t.s16 ^^^ d1
  let a17 := t.s17 ^^^ d2
  let a18 := t.s18 ^^^ d3
  let a19 := t.s19 ^^^ d4
  let a20 := t.s20 ^^^ d0
  let a21 := t.s21 ^^^ d1
  let a22 := t.s22 ^^^ d2
  let a23 := t.s23 ^^^ d3
  let a24 := t.s24 ^^^ d4
  let b0 := a0
  let b10 := rotl64 a1 1
  let b20 := rotl64 a2 62
  let b5 := rotl64 a3 28
  let b15 := rotl64 a4 27
  let b16 := rotl64 a5 36
  let b1 := rotl64 a6 44
  let b11 := rotl64 a7 6
  let b21 := rotl64 a8 55
  let b6 := rotl64 a9 20
  let b7 := rotl64 a10 3
  let b17 := rotl64 a11 10
  let b2 := rotl64 a12 43
  let b12 := rotl64 a13 25
  let b22 := rotl64 a14 39
  let b23 := rotl64 a15 41
  let b8 := rotl64 a16 45
  let b18 := rotl64 a17 15
  let b3 := rotl64 a18 21
  let b13 := rotl64 a19 8
  let b14 := rotl64 a20 18
  let b24 := rotl64 a21 2
  let b9 := rotl64 a22 61
  let b19 := rotl64 a23 56
  let b4 := rotl64 a24 14
  let m := 2 ^ 64 - 1
  let e0 := b0 ^^^ ((b1 ^^^ m) &&& b2)
  let e1 := b1 ^^^ ((b2 ^^^ m) &&& b3)
  let e2 := b2 ^^^ ((b3 ^^^ m) &&& b4)
  let e3 := b3 ^^^ ((b4 ^^^ m) &&& b0)
  let e4 := b4 ^^^ ((b0 ^^^ m) &&& b1)
  let e5 := b5 ^^^ ((b6 ^^^ m) &&& b7)
  let e6 := b6 ^^^ ((b7 ^^^ m) &&& b8)
  let e7 := b7 ^^^ ((b8 ^^^ m) &&& b9)
  let e8 := b8 ^^^ ((b9 ^^^ m) &&& b5)
  let e9 := b9 ^^^ ((b5 ^^^ m) &&& b6)
  let e10 := b10 ^^^ ((b11 ^^^ m) &&& b12)
  let e11 := b11 ^^^ ((b12 ^^^ m) &&& b13)
  let e12 := b12 ^^^ ((b13 ^^^ m) &&& b14)
  let e13 := b13 ^^^ ((b14 ^^^ m) &&& b10)
  let e14 := b14 ^^^ ((b10 ^^^ m) &&& b11)
  let e15 := b15 ^^^ ((b16 ^^^ m) &&& b17)
  let e16 := b16 ^^^ ((b17 ^^^ m) &&& b18)
  let e17 := b17 ^^^ ((b18 ^^^ m) &&& b19)
  let e18 := b18 ^^^ ((b19 ^^^ m) &&& b15)
  let e19 := b19 ^^^ ((b15 ^^^ m) &&& b16)
  let e20 := b20 ^^^ ((b21 ^^^ m) &&& b22)
  let e21 := b21 ^^^ ((b22 ^^^ m) &&& b23)
  let e22 := b22 ^^^ ((b23 ^^^ m) &&& b24)
  let e23 := b23 ^^^ ((b24 ^^^ m) &&& b20)
  let e24 := b24 ^^^ ((b20 ^^^ m) &&& b21)
  ⟨e0 ^^^ rc, e1, e2, e3, e4, e5, e6, e7, e8, e9, e10, e11, e12,
   e13, e14, e15, e16, e17, e18, e19, e20, e21, e22, e23, e24⟩

/-- The 24 round constants of Keccak-f[1600]. -/
def keccakRCs : List Nat :=
  [0x0000000000000001, 0x0000000000008082, 0x800000000000808a, 0x8000000080008000,
   0x000000000000808b, 0x0000000080000001, 0x8000000080008081, 0x8000000000008009,
   0x000000000000008a, 0x0000000000000088, 0x0000000080008009, 0x000000008000000a,
   0x000000008000808b, 0x800000000000008b, 0x8000000000008089, 0x8000000000008003,
   0x8000000000008002, 0x8000000000000080, 0x000000000000800a, 0x800000008000000a,
   0x8000000080008081, 0x8000000000008080, 0x0000000080000001, 0x8000000080008008]

/-- The full Keccak-f[1600] permutation (24 rounds). -/
def keccakP (t : KeccakState) : KeccakState :=
  keccakRCs.foldl (fun s rc => keccakRound rc s) t

/-- Little-endian value of a byte list (first byte is least significant). -/
def leVal (bs : List Nat) : Nat :=
  bs.foldr (fun b acc => b + 256 * acc) 0

/-- The `k` little-endian bytes of `v`. -/
def leBytes : Nat → Nat → List Nat
  | 0, _ => []
  | k + 1, v => (v % 256) :: leBytes k (v / 256)

/-- Lane `j` (0-based) of a 136-byte rate block, as a little-endian 64-bit word. -/
def blockLane (block : List Nat) (j : Nat) : Nat :=
  leVal ((block.drop (8 * j)).take 8)

/-- Absorb one 136-byte block (17 lanes) and permute. -/
def absorbBlock (t : KeccakState) (block : List Nat) : KeccakState :=
  keccakP
    { t with
      s0 := t.s0 ^^^ blockLane block 0
      s1 := t.s1 ^^^ blockLane block 1
      s2 := t.s2 ^^^ blockLane block 2
      s3 := t.s3 ^^^ blockLane block 3
      s4 := t.s4 ^^^ blockLane block 4
      s5 := t.s5 ^^^ blockLane block 5
      s6 := t.s6 ^^^ blockLane block 6
      s7 := t.s7 ^^^ blockLane block 7
      s8 := t.s8 ^^^ blockLane block 8
      s9 := t.s9 ^^^ blockLane block 9
      s10 := t.s10 ^^^ blockLane block 10
      s11 := t.s11 ^^^ blockLane block 11
      s12 := t.s12 ^^^ blockLane block 12
      s13 := t.s13 ^^^ blockLane block 13
      s14 := t.s14 ^^^ blockLane block 14
      s15 := t.s15 ^^^ blockLane block 15
      s16 := t.s16 ^^^ blockLane block 16 }

/-- The all-zero initial sponge state. -/
def keccakInit : KeccakState :=
  ⟨0, 0, 0, 0, 0, 0, 0, 0, 0, 0, 0, 0, 0, 0, 0, 0, 0, 0, 0, 0, 0, 0, 0, 0, 0⟩

/-- SHA3 padding (domain separator 0x06, final bit 0x80) to a multiple of
the 136-byte rate. -/
def sha3Pad (msg : List Nat) : List Nat :=
  let padLen := 136 - msg.length % 136
  if padLen = 1 then msg ++ [0x86]
  else msg ++ [0x06] ++ List.replicate (padLen - 2) 0 ++ [0x80]

/-- Absorb `n` rate-sized blocks of `msg`. -/
def absorbBlocks : KeccakState → Nat → List Nat → KeccakState
  | t, 0, _ => t
  | t, n + 1, msg => absorbBlocks (absorbBlock t (msg.take 136)) n (msg.drop 136)

/-- SHA3-256: absorb the padded message, output the first 32 bytes of the state. -/
def sha3_256 (msg : List Nat) : List Nat :=
  let padded := sha3Pad msg
  let t := absorbBlocks keccakInit (padded.length / 136) padded
  leBytes 8 t.s0 ++ leBytes 8 t.s1 ++ leBytes 8 t.s2 ++ leBytes 8 t.s3

/-! ### `src/prefix.rs`

A `Name` is a `u64`, modelled as a `Nat` (bounds appear as hypotheses
where they matter).  A `Prefix` is `{ len : u8, bits : u64 }`. -/

structure Prefix where
  len : Nat
  bits : Nat
deriving DecidableEq

/-- `Prefix::EMPTY`. -/
def Prefix.empty : Prefix := ⟨0, 0⟩

/-- `Prefix::len_mask`: `(-1i64 as u64) << (64 - len)` for nonzero `len`. -/
def Prefix.len_mask (q : Prefix) : Nat :=
  if q.len = 0 then 0 else ((2 ^ 64 - 1) <<< (64 - q.len)) % 2 ^ 64

/-- `Prefix::extend`. -/
def Prefix.extend (q : Prefix) (bit : Nat) : Prefix :=
  if q.len > 63 then q
  else ⟨q.len + 1, q.bits ||| ((bit &&& 1) <<< (63 - q.len))⟩

/-- `Prefix::shorten` (u64 shift-left wraps modulo `2 ^ 64`). -/
def Prefix.shorten (q : Prefix) : Prefix :=
  if q.len < 1 then q
  else ⟨q.len - 1, q.bits &&& ((q.len_mask <<< 1) % 2 ^ 64)⟩

/-- `Prefix::split`, the two child prefixes. -/
def Prefix.split (q : Prefix) : Prefix × Prefix :=
  (q.extend 0, q.extend 1)

/-- `Prefix::with_flipped_bit`. -/
def Prefix.with_flipped_bit (q : Prefix) (bit : Nat) : Prefix :=
  ⟨q.len, q.bits ^^^ (1 <<< (63 - bit))⟩

/-- `Prefix::sibling`. -/
def Prefix.sibling (q : Prefix) : Prefix :=
  if q.len > 0 then q.with_flipped_bit (q.len - 1) else q

/-- `Prefix::matches`. -/
def Prefix.matches (q : Prefix) (name : Nat) : Bool :=
  (name &&& q.len_mask) ^^^ q.bits = 0

/-- `Prefix::substituted_in` (`name &= !mask; name |= bits`). -/
def Prefix.substituted_in (q : Prefix) (name : Nat) : Nat :=
  (name &&& (q.len_mask ^^^ (2 ^ 64 - 1))) ||| q.bits

/-! ### `src/params.rs` -/

inductive RelocationStrategy
  | youngestFirst
  | oldestFirst
deriving DecidableEq

/-- The simulation parameters used by the core protocol (the seed,
iteration count and output options of `params.rs` only feed the driver). -/
structure Params where
  group_size : Nat
  init_age : Nat
  adult_age : Nat
  max_section_size : Nat
  max_relocation_attempts : Nat
  max_infants_per_section : Nat
  relocation_strategy : RelocationStrategy
deriving DecidableEq

/-- `Params::quorum`: a simple majority of the group. -/
def Params.quorum (p : Params) : Nat :=
  p.group_size / 2 + 1

/-! ### `src/node.rs` -/

structure Node where
  name : Nat
  age : Nat
  elder : Bool
deriving DecidableEq

/-- `Node::new`. -/
def Node.new (name age : Nat) : Node := ⟨name, age, false⟩

/-- `Node::is_infant`. -/
def Node.is_infant (n : Node) (p : Params) : Bool :=
  n.age < p.adult_age

/-- `Node::is_adult`. -/
def Node.is_adult (n : Node) (p : Params) : Bool :=
  p.adult_age ≤ n.age

/-- `Node::increment_age` (`saturating_add` on u64). -/
def Node.increment_age (n : Node) : Node :=
  { n with age := min (n.age + 1) (2 ^ 64 - 1) }

/-- `node::count_adults`. -/
def count_adults (p : Params) (nodes : List Node) : Nat :=
  (nodes.filter (fun n => n.is_adult p)).length

/-- `node::count_infants`. -/
def count_infants (p : Params) (nodes : List Node) : Nat :=
  (nodes.filter (fun n => n.is_infant p)).length

/-- The sort order of `node::by_age`: by the key `(age, name)`,
lexicographically (Rust `sort_by_key` on the pair). -/
def nodeLe (a b : Node) : Prop :=
  a.age < b.age ∨ (a.age = b.age ∧ a.name ≤ b.name)

instance : DecidableRel nodeLe := fun a b => by
  unfold nodeLe; infer_instance

instance : IsTotal Node nodeLe where
  total a b := by
    unfold nodeLe
    rcases Nat.lt_trichotomy a.age b.age with h | h | h
    · exact Or.inl (Or.inl h)
    · rcases Nat.le_total a.name b.name with hn | hn
      · exact Or.inl (Or.inr ⟨h, hn⟩)
      · exact Or.inr (Or.inr ⟨h.symm, hn⟩)
    · exact Or.inr (Or.inl h)

instance : IsTrans Node nodeLe where
  trans a b c hab hbc := by
    unfold nodeLe at *
    rcases hab with h1 | ⟨h1, h1n⟩ <;> rcases hbc with h2 | ⟨h2, h2n⟩
    · exact Or.inl (h1.trans h2)
    · exact Or.inl (h2 ▸ h1)
    · exact Or.inl (h1 ▸ h2)
    · exact Or.inr ⟨h1.trans h2, h1n.trans h2n⟩

/-- `node::by_age`: stable sort from youngest to oldest (ties by name). -/
def by_age (nodes : List Node) : List Node :=
  nodes.insertionSort nodeLe

/-- Modelled from the spec: `node::count_matching_adults` is called from
`section.rs` but its definition is not under `src/` (absent from
`src/node.rs`); the spec defines it as the count of adult members whose
name matches the given (child) prefix. -/
def count_matching_adults (p : Params) (q : Prefix) (nodes : List Node) : Nat :=
  (nodes.filter (fun n => q.matches n.name && n.is_adult p)).length

/-! ### `src/chain.rs`

A `Hash` is a 32-byte array, modelled as a `List Nat` of length 32 with
entries below 256. -/

inductive Event
  | live
  | dead
  | gone
deriving DecidableEq

structure Block where
  event : Event
  name : Nat
  age : Nat
deriving DecidableEq

/-- `Block::new`. -/
def Block.new (event : Event) (name age : Nat) : Block := ⟨event, name, age⟩

/-- The 17 bytes serialized by `Block::hash`: one tag byte, then the name
and the age as little-endian u64. -/
def Block.bytes (b : Block) : List Nat :=
  (match b.event with
    | Event.live => 0
    | Event.dead => 1
    | Event.gone => 2) :: (leBytes 8 b.name ++ leBytes 8 b.age)

/-- `Block::hash`. -/
def Block.hash (b : Block) : List Nat :=
  sha3_256 b.bytes

structure Chain where
  last_live : Option Block
deriving DecidableEq

/-- `Chain::new`. -/
def Chain.new : Chain := ⟨none⟩

/-- `Chain::insert`: keep only the most recent `Live` block. -/
def Chain.insert (c : Chain) (b : Block) : Chain :=
  match b.event with
  | Event.live => ⟨some b⟩
  | _ => c

/-- `Chain::extend`. -/
def Chain.extend (c : Chain) (other : Chain) : Chain :=
  match other.last_live with
  | some b => ⟨some b⟩
  | none => c

/-- `Hash::rehash`. -/
def Hash.rehash (h : List Nat) : List Nat :=
  sha3_256 h

/-- `u8::trailing_zeros` (8 for the zero byte). -/
def u8_trailing_zeros : Nat → Nat → Nat
  | 0, _ => 0
  | fuel + 1, b => if b % 2 = 1 then 0 else 1 + u8_trailing_zeros fuel (b / 2)

/-- The loop of `Hash::trailing_zeros` over the reversed byte list:
accumulate per-byte trailing zeros, stopping at the first byte that is
not all zeros. -/
def trailing_zeros_list : List Nat → Nat
  | [] => 0
  | b :: rest =>
    let zeros := u8_trailing_zeros 8 b
    if zeros < 8 then zeros else zeros + trailing_zeros_list rest

/-- `Hash::trailing_zeros` (iterates the bytes from last to first). -/
def Hash.trailing_zeros (h : List Nat) : Nat :=
  trailing_zeros_list h.reverse

/-- The loop of `From<Name> for Hash`: write little-endian bytes of
`value_in` at indices `7 - i` downwards, stopping early once the value is
exhausted (at most 8 iterations). -/
def fromNameLoop : Nat → Nat → Nat → List Nat → List Nat
  | 0, _, _, result => result
  | fuel + 1, value_in, i, result =>
    let result := result.set (7 - i) (value_in % 256)
    let value_in := value_in / 256
    if value_in = 0 then result else fromNameLoop fuel value_in (i + 1) result

/-- `From<Name> for Hash`: the name occupies the first 8 bytes
(big-endian); the remaining 24 bytes are zero. -/
def Hash.fromName (n : Nat) : List Nat :=
  fromNameLoop 8 n 0 (List.replicate 32 0)

/-- `Into<Name> for Hash`: read the first 8 bytes big-endian. -/
def Hash.toName (h : List Nat) : Nat :=
  (h.take 8).foldl (fun result v => result * 256 + v) 0

/-! ### `src/message.rs` -/

inductive Message
  | relocateRequest (node_name target : Nat)
  | relocateAccept (node_name target : Nat)
  | relocateReject (node_name target : Nat)
  | relocateCommit (node : Node) (target : Nat)
  | relocateCancel (node_name target : Nat)
deriving DecidableEq

inductive Action
  | reject (node : Node)
  | merge (q : Prefix)
  | split (q : Prefix)
  | send (m : Message)
deriving DecidableEq

/-! ### `src/section.rs`

The `HashMap<Name, Node>` of members is modelled as a `List Node` (keyed
by `Node.name`); the two relocation caches as association lists. -/

structure Section where
  pfx : Prefix
  nodes : List Node
  chain : Chain
  messages : List Message
  incoming_relocations : List (Nat × Nat)
  outgoing_relocations : List (Nat × Nat)
  recent_join : Bool
  recent_drop : Bool
deriving DecidableEq

/-- `HashMap::insert` on an association list: replace the entry with the
given key if present, else add one. -/
def insertAssoc (m : List (Nat × Nat)) (k v : Nat) : List (Nat × Nat) :=
  (k, v) :: m.filter (fun kv => kv.1 ≠ k)

/-- `HashMap::get` on an association list. -/
def lookupAssoc (m : List (Nat × Nat)) (k : Nat) : Option Nat :=
  (m.find? (fun kv => kv.1 = k)).map (fun kv => kv.2)

/-- `HashMap::remove` on an association list (dropping the entry). -/
def removeAssoc (m : List (Nat × Nat)) (k : Nat) : List (Nat × Nat) :=
  m.filter (fun kv => kv.1 ≠ k)

/-- `Section::join_node`: `HashMap::insert` keyed by the node's name. -/
def join_node (s : Section) (node : Node) : Section :=
  { s with nodes := s.nodes.filter (fun m => m.name ≠ node.name) ++ [node] }

/-- `Section::drop_node`: `HashMap::remove` keyed by name, returning the
removed node if any. -/
def drop_node (s : Section) (name : Nat) : Option Node × Section :=
  match s.nodes.find? (fun m => m.name = name) with
  | some node => (some node, { s with nodes := s.nodes.filter (fun m => m.name ≠ name) })
  | none => (none, s)

/-- `Section::update_elders`: promote/demote so that exactly the
`group_size` oldest members (it does not filter to adults) are elders,
recording `Gone`/`Live` blocks in the chain for demotions/promotions. -/
def update_elders (p : Params) (s : Section) : Section :=
  let old := (s.nodes.filter (fun n => n.elder)).map (fun n => n.name)
  let new := ((by_age s.nodes).reverse.take p.group_size).map (fun n => n.name)
  let nodes := s.nodes.map (fun node =>
    if old.contains node.name && !(new.contains node.name) then { node with elder := false }
    else if new.contains node.name && !(old.contains node.name) then { node with elder := true }
    else node)
  let chain := s.nodes.foldl (fun c node =>
    if old.contains node.name && !(new.contains node.name) then
      c.insert (Block.new Event.gone node.name node.age)
    else if new.contains node.name && !(old.contains node.name) then
      c.insert (Block.new Event.live node.name node.age)
    else c) s.chain
  { s with nodes := nodes, chain := chain }

/-- The ordering used by Rust `sort_by_key` for a `Nat`-valued key. -/
def keyLeRel (f : Node → Nat) (a b : Node) : Prop :=
  f a ≤ f b

instance (f : Node → Nat) : DecidableRel (keyLeRel f) :=
  fun a b => Nat.decLe (f a) (f b)

instance (f : Node → Nat) : IsTotal Node (keyLeRel f) :=
  ⟨fun a b => Nat.le_total (f a) (f b)⟩

instance (f : Node → Nat) : IsTrans Node (keyLeRel f) :=
  ⟨fun _ _ _ => Nat.le_trans⟩

/-- `section::break_ties`: xor all names into `total`, then pick the
name minimizing `name ^ total`. -/
def break_ties (nodes : List Node) : Option Nat :=
  let total := nodes.foldl (fun total node => total ^^^ node.name) 0
  let sorted := nodes.insertionSort (keyLeRel (fun node => node.name ^^^ total))
  sorted.head?.map (fun n => n.name)

/-- `Section::relocation_candidates`: members whose age is at most the
hash's trailing zero count; the count is a `u64` cast `as u8`, hence the
`% 256`. -/
def relocation_candidates (s : Section) (h : List Nat) : List Node :=
  let trailing_zeros := Hash.trailing_zeros h % 256
  s.nodes.filter (fun node => node.age ≤ trailing_zeros)

/-- `Section::check_relocate`: sort candidates oldest-first (Rust key
`u8::MAX - age`), keep the ones sharing the extreme age, break ties. -/
def check_relocate (s : Section) (h : List Nat) : Option Nat :=
  let candidates := relocation_candidates s h
  if candidates.isEmpty then none
  else
    let candidates := candidates.insertionSort (keyLeRel (fun node => 255 - node.age))
    let age := (candidates.head?.map (fun n => n.age)).getD 0
    let index := candidates.findIdx (fun node => node.age ≠ age)
    let candidates := candidates.take index
    if candidates.length = 1 then candidates.head?.map (fun n => n.name)
    else break_ties candidates

/-- Wrapping `usize` subtraction on a 64-bit target (the release-profile
semantics of `a - b`; debug builds panic on underflow).  Both arguments
are first reduced modulo `2 ^ 64`, so a wrapping product such as
`2 * group_size` can be passed directly. -/
def usize_sub (a b : Nat) : Nat :=
  (a % 2 ^ 64 + 2 ^ 64 - b % 2 ^ 64) % 2 ^ 64

/-- `Section::try_split`.  The source panics when the prefix cannot be
extended (both children equal to the parent); that is the `error` case.
The limit `2 * group_size - quorum` is `usize` arithmetic: at
`group_size = 0` it underflows (debug builds panic; release builds wrap
to `usize::MAX`, so no split ever triggers), which `usize_sub` models
with the release wrapping semantics. -/
def try_split (p : Params) (s : Section) : Except Unit (Option Action) :=
  let prefixes := s.pfx.split
  if prefixes.1 = s.pfx ∨ prefixes.2 = s.pfx then Except.error ()
  else
    let num_adults0 := count_matching_adults p prefixes.1 s.nodes
    let num_adults1 := count_matching_adults p prefixes.2 s.nodes
    let limit := usize_sub (2 * p.group_size) p.quorum
    if limit ≤ num_adults0 ∧ limit ≤ num_adults1 then Except.ok (some (Action.split s.pfx))
    else Except.ok none

/-- `Section::try_merge`. -/
def try_merge (p : Params) (s : Section) : Option Action :=
  if s.pfx = Prefix.empty then none
  else if p.group_size ≤ count_adults p s.nodes then none
  else some (Action.merge s.pfx.shorten)

/-- The retry loop of `Section::try_relocate`, instrumented: the extra
`Nat` counts the `rehash` calls performed (one per failed attempt). -/
def relocLoop (s : Section) : Nat → List Nat → (Option Action × Section) × Nat
  | 0, _ => ((none, s), 0)
  | n + 1, h =>
    match check_relocate s h with
    | some node_name =>
      let target := Hash.toName h
      ((some (Action.send (Message.relocateRequest node_name target)),
        { s with outgoing_relocations := insertAssoc s.outgoing_relocations node_name target }), 0)
    | none =>
      let r := relocLoop s n (Hash.rehash h)
      (r.1, r.2 + 1)

/-- `Section::try_relocate` with the rehash count exposed. -/
def try_relocate_instr (p : Params) (s : Section) (live_block : Block) :
    (Option Action × Section) × Nat :=
  if s.pfx = Prefix.empty then ((none, s), 0)
  else if count_adults p s.nodes ≤ p.group_size then ((none, s), 0)
  else if ¬ s.outgoing_relocations = [] then ((none, s), 0)
  else relocLoop s p.max_relocation_attempts live_block.hash

/-- `Section::try_relocate`. -/
def try_relocate (p : Params) (s : Section) (live_block : Block) : Option Action × Section :=
  (try_relocate_instr p s live_block).1

/-- `Section::reject_node` (no state change). -/
def reject_node (_s : Section) (node : Node) : Action :=
  Action.reject node

/-- The common tail of `Section::handle_live` after the bootstrap/infant
checks: join, recompute elders, attempt split, then attempt relocation
for an adult. -/
def handle_live_core (p : Params) (s : Section) (node : Node) :
    Except Unit (Option Action × Section) :=
  let name := node.name
  let age := node.age
  let is_adult := node.is_adult p
  let s1 := update_elders p (join_node s node)
  match try_split p s1 with
  | Except.error e => Except.error e
  | Except.ok (some action) => Except.ok (some action, s1)
  | Except.ok none =>
    if is_adult then Except.ok (try_relocate p s1 (Block.new Event.live name age))
    else Except.ok (none, s1)

/-- `Section::handle_live`. -/
def handle_live (p : Params) (s : Section) (node : Node) :
    Except Unit (Option Action × Section) :=
  if s.pfx = Prefix.empty then
    handle_live_core p s (Node.new node.name p.adult_age)
  else if node.is_infant p && decide (p.max_infants_per_section ≤ count_infants p s.nodes) then
    Except.ok (some (reject_node s node), s)
  else
    handle_live_core p s node

/-- `Section::handle_dead`. -/
def handle_dead (p : Params) (s : Section) (name : Nat) : List Action × Section :=
  match drop_node s name with
  | (none, _) => ([], s)
  | (some node, s1) =>
    let step2 :=
      match lookupAssoc s1.outgoing_relocations node.name with
      | some target =>
        ([Action.send (Message.relocateCancel node.name target)],
         { s1 with outgoing_relocations := removeAssoc s1.outgoing_relocations node.name })
      | none => (([] : List Action), s1)
    let cancel_actions := step2.1
    let s2 := step2.2
    let merge_actions := (try_merge p s2).toList
    if node.is_adult p then
      let s3 := update_elders p s2
      match s3.chain.last_live with
      | some block =>
        let rs := try_relocate p s3 block
        (cancel_actions ++ merge_actions ++ rs.1.toList, rs.2)
      | none => (cancel_actions ++ merge_actions, s3)
    else (cancel_actions ++ merge_actions, s2)

/-! ### Spec-side definitions (for comparison against the code) -/

/-- The spec's elder order: oldest first, ties broken by name ascending. -/
def specOldestAdultLe (a b : Node) : Prop :=
  b.age < a.age ∨ (a.age = b.age ∧ a.name ≤ b.name)

instance : DecidableRel specOldestAdultLe := fun a b => by
  unfold specOldestAdultLe; infer_instance

/-- Written from the spec sentence "pick the G oldest adult members, ties
broken by name ascending", for comparison with `update_elders`. -/
def specOldestAdultNames (p : Params) (nodes : List Node) : List Nat :=
  (((nodes.filter (fun n => n.is_adult p)).insertionSort specOldestAdultLe).take
    p.group_size).map (fun n => n.name)

/-- The 256-bit integer obtained by reading a hash's bytes in big-endian
order (the spec's `h` in `h mod 2^age == 0`). -/
def beVal (bs : List Nat) : Nat :=
  bs.foldl (fun acc b => acc * 256 + b) 0

/-- The claim's byte layout for a block: tag, name as little-endian u64,
age as little-endian u64. -/
def specBlockBytes (e : Event) (name age : Nat) : List Nat :=
  [match e with | Event.live => 0 | Event.dead => 1 | Event.gone => 2,
   name % 256, name / 256 % 256, name / 256 ^ 2 % 256, name / 256 ^ 3 % 256,
   name / 256 ^ 4 % 256, name / 256 ^ 5 % 256, name / 256 ^ 6 % 256, name / 256 ^ 7 % 256,
   age % 256, age / 256 % 256, age / 256 ^ 2 % 256, age / 256 ^ 3 % 256,
   age / 256 ^ 4 % 256, age / 256 ^ 5 % 256, age / 256 ^ 6 % 256, age / 256 ^ 7 % 256]

/-- `i`-fold rehash, the hash tried at attempt `i` of the relocation loop. -/
def rehashIter : Nat → List Nat → List Nat
  | 0, h => h
  | n + 1, h => rehashIter n (Hash.rehash h)

/-! ### Concrete fixtures used by witnesses and counterexamples -/

/-- Parameters with `group_size = 2`, `adult_age = 5` (defaults otherwise). -/
def paramsG2 : Params := ⟨2, 4, 5, 60, 5, 1, RelocationStrategy.oldestFirst⟩

/-- Parameters with `group_size = 2` and `adult_age = 0` (every node adult). -/
def paramsG2AdultZero : Params := ⟨2, 4, 0, 60, 5, 1, RelocationStrategy.oldestFirst⟩

/-- Parameters with `group_size = 1`. -/
def paramsG1 : Params := ⟨1, 4, 5, 60, 5, 1, RelocationStrategy.oldestFirst⟩

/-- Parameters configured with the `YoungestFirst` relocation strategy. -/
def paramsG2Youngest : Params := ⟨2, 4, 5, 60, 5, 1, RelocationStrategy.youngestFirst⟩

/-- A section under prefix `0` holding one adult elder. -/
def sectionOneElder : Section :=
  ⟨⟨1, 0⟩, [⟨1, 5, true⟩], Chain.new, [], [], [], false, false⟩

/-- A section under prefix `0` holding three age-0 members. -/
def sectionThreeZeroAge : Section :=
  ⟨⟨1, 0⟩, [⟨1, 0, false⟩, ⟨2, 0, false⟩, ⟨3, 0, false⟩], Chain.new, [], [], [], false, false⟩

/-- A section whose prefix has the maximum length 64. -/
def sectionMaxPrefix : Section :=
  ⟨⟨64, 0⟩, [⟨0, 5, false⟩], Chain.new, [], [], [], false, false⟩

/-- A section under prefix `0` with two adults of ages 5 and 6. -/
def sectionTwoAdults : Section :=
  ⟨⟨1, 0⟩, [⟨1, 5, false⟩, ⟨2, 6, false⟩], Chain.new, [], [], [], false, false⟩

/-- A section whose members all have age above 255. -/
def sectionOldMembers : Section :=
  ⟨⟨1, 0⟩, [⟨1, 300, false⟩, ⟨2, 301, false⟩, ⟨3, 302, false⟩], Chain.new, [], [], [], false, false⟩

/-- An empty section with one outstanding outgoing relocation. -/
def sectionPendingOut : Section :=
  ⟨⟨1, 0⟩, [], Chain.new, [], [], [(7, 9)], false, false⟩

/-- The all-zero 32-byte hash. -/
def hashZero : List Nat := List.replicate 32 0

/-- A hash with exactly 6 trailing zero bits (last byte 64). -/
def hashSixZeros : List Nat := List.replicate 31 0 ++ [64]

/-- A `Live` block for the name 1 at age 0. -/
def blockLive10 : Block := Block.new Event.live 1 0

/-- A section under prefix `0` holding one member of age 3. -/
def sectionAgeThree : Section :=
  ⟨⟨1, 0⟩, [⟨1, 3, false⟩], Chain.new, [], [], [], false, false⟩

/-! ## Theorems -/

/-- Claim C4: `try_merge` produces no action when the section's prefix is
the empty prefix; for every section with a non-empty prefix it produces a
`Merge` action targeting `shorten prefix` if and only if the adult count
is strictly below `group_size`, and no action otherwise. -/
theorem c4_try_merge_rule (p : Params) (s : Section) :
    (s.pfx = Prefix.empty → try_merge p s = none)
    ∧ (s.pfx ≠ Prefix.empty →
        ((try_merge p s = some (Action.merge s.pfx.shorten)) ↔
          count_adults p s.nodes < p.group_size)
        ∧ (p.group_size ≤ count_adults p s.nodes → try_merge p s = none)) := by
  unfold try_merge
  constructor
  · intro h
    rw [if_pos h]
  · intro h
    rw [if_neg h]
    by_cases hc : p.group_size ≤ count_adults p s.nodes
    · rw [if_pos hc]
      refine ⟨⟨?_, ?_⟩, ?_⟩
      · intro hEq
        cases hEq
      · intro hlt
        exfalso; omega
      · intro _
        rfl
    · rw [if_neg hc]
      refine ⟨⟨?_, ?_⟩, ?_⟩
      · intro _
        omega
      · intro _
        rfl
      · intro hc2
        exact absurd hc2 hc

/-- Witness for C4 at a concrete input: a one-adult section under prefix
`0` with `group_size = 2` initiates a merge towards the empty prefix. -/
theorem c4_try_merge_rule_witness :
    try_merge paramsG2 sectionOneElder = some (Action.merge sectionOneElder.pfx.shorten) :=
  ((c4_try_merge_rule paramsG2 sectionOneElder).2 (by decide)).1.mpr (by decide)

/-- Claim C5 (code bug): `check_relocate` takes no relocation strategy at
all — the parsed `relocation_strategy` is never consulted — and returns
the oldest candidate even when the configured strategy is
`YoungestFirst`: on a section with candidates of ages 5 and 6 (both below
the hash's 6 trailing zero bits) it returns the age-6 node. -/
theorem c5_check_relocate_ignores_strategy :
    paramsG2Youngest.relocation_strategy = RelocationStrategy.youngestFirst
    ∧ relocation_candidates sectionTwoAdults hashSixZeros =
        [Node.mk 1 5 false, Node.mk 2 6 false]
    ∧ check_relocate sectionTwoAdults hashSixZeros = some 2 := by
  refine ⟨rfl, by decide, by decide⟩

/-- Claim C3 (amended): for every parameter set with `0 < group_size`
(at `group_size = 0` the `usize` limit `2 * group_size - quorum`
underflows: debug builds panic, release builds wrap to `usize::MAX` and
never split) whose doubled group size fits in `usize`, and every section
whose prefix is extendable (length below 64; at length 64 the source
panics instead), `try_split` produces a `Split` action if and only if
both child adult counts reach `2 * group_size - quorum`, and produces no
action otherwise. -/
theorem c3_try_split_iff (p : Params) (s : Section) (hlen : s.pfx.len < 64)
    (hG : 0 < p.group_size) (hbound : 2 * p.group_size < 2 ^ 64) :
    (try_split p s = Except.ok (some (Action.split s.pfx)) ↔
      (2 * p.group_size - p.quorum ≤ count_matching_adults p (s.pfx.split).1 s.nodes ∧
       2 * p.group_size - p.quorum ≤ count_matching_adults p (s.pfx.split).2 s.nodes))
    ∧ (¬ (2 * p.group_size - p.quorum ≤ count_matching_adults p (s.pfx.split).1 s.nodes ∧
          2 * p.group_size - p.quorum ≤ count_matching_adults p (s.pfx.split).2 s.nodes) →
       try_split p s = Except.ok none) := by
  have hchild : ∀ bit, s.pfx.extend bit ≠ s.pfx := by
    intro bit
    unfold Prefix.extend
    rw [if_neg (by omega)]
    intro hEq
    have hlen2 := congrArg Prefix.len hEq
    simp at hlen2
  have hcond : ¬ ((s.pfx.split).1 = s.pfx ∨ (s.pfx.split).2 = s.pfx) := by
    intro hor
    exact hor.elim (hchild 0) (hchild 1)
  have hlimit : usize_sub (2 * p.group_size) p.quorum = 2 * p.group_size - p.quorum := by
    have hq : p.quorum ≤ 2 * p.group_size := by
      unfold Params.quorum
      omega
    have hqlt : p.quorum < 2 ^ 64 := by omega
    unfold usize_sub
    rw [Nat.mod_eq_of_lt hbound, Nat.mod_eq_of_lt hqlt]
    omega
  simp only [try_split]
  rw [hlimit, if_neg hcond]
  by_cases hc : 2 * p.group_size - p.quorum ≤ count_matching_adults p (s.pfx.split).1 s.nodes ∧
      2 * p.group_size - p.quorum ≤ count_matching_adults p (s.pfx.split).2 s.nodes
  · rw [if_pos hc]
    refine ⟨⟨?_, ?_⟩, ?_⟩
    · intro _
      exact hc
    · intro _
      rfl
    · intro hn
      exact absurd hc hn
  · rw [if_neg hc]
    refine ⟨⟨?_, ?_⟩, ?_⟩
    · intro hEq
      simp at hEq
    · intro hc2
      exact absurd hc2 hc
    · intro _
      rfl

/-- Witness for C3 at a concrete input: the one-adult section under
prefix `0` with `group_size = 2` does not split. -/
theorem c3_try_split_iff_witness :
    sectionOneElder.pfx.len < 64 ∧ try_split paramsG2 sectionOneElder = Except.ok none :=
  ⟨by decide,
   (c3_try_split_iff paramsG2 sectionOneElder (by decide) (by decide) (by decide)).2
     (by decide)⟩

/-- Claim C3 counterexample: at a prefix of maximal length 64 (with
`group_size = 1`) both child adult counts reach the limit
`2 * group_size - quorum = 1`, yet `try_split` panics (the `error` case)
rather than producing a `Split` action. -/
theorem c3_counterexample :
    2 * paramsG1.group_size - paramsG1.quorum ≤
        count_matching_adults paramsG1 (sectionMaxPrefix.pfx.split).1 sectionMaxPrefix.nodes
    ∧ 2 * paramsG1.group_size - paramsG1.quorum ≤
        count_matching_adults paramsG1 (sectionMaxPrefix.pfx.split).2 sectionMaxPrefix.nodes
    ∧ try_split paramsG1 sectionMaxPrefix = Except.error () := by
  refine ⟨by decide, by decide, rfl⟩

set_option maxRecDepth 1000000 in
/-- Claim C2 counterexample: with `group_size = 2`, `adult_age = 0` and
three adult members, `try_relocate` emits a `RelocateRequest` for member
1 even though performing that relocation leaves the section with 2 adult
members, fewer than `group_size + 1 = 3`. -/
theorem c2_counterexample :
    (try_relocate paramsG2AdultZero sectionThreeZeroAge blockLive10).1 =
      some (Action.send (Message.relocateRequest 1 10337097913905365542))
    ∧ Node.mk 1 0 false ∈ sectionThreeZeroAge.nodes
    ∧ (Node.mk 1 0 false).is_adult paramsG2AdultZero = true
    ∧ count_adults paramsG2AdultZero
        (sectionThreeZeroAge.nodes.filter (fun n => n.name ≠ 1)) <
      paramsG2AdultZero.group_size + 1 := by
  refine ⟨by decide, by decide, by decide, by decide⟩

/-- Claim C2 (amended): `try_relocate` emits nothing while an outgoing
relocation is outstanding; it emits nothing when the section has at most
`group_size` adults (the source's guard, which still allows relocating an
adult out of a section holding exactly `group_size + 1` adults); and when
it emits an action, that action is a `RelocateRequest` and the section
state other than `outgoing_relocations` is unchanged. -/
theorem c2_try_relocate_guards (p : Params) (s : Section) (b : Block) :
    (s.outgoing_relocations ≠ [] → try_relocate p s b = (none, s))
    ∧ (count_adults p s.nodes ≤ p.group_size → try_relocate p s b = (none, s))
    ∧ (∀ a s2, try_relocate p s b = (some a, s2) →
        (∃ nm tg, a = Action.send (Message.relocateRequest nm tg)
          ∧ s2 = { s with outgoing_relocations := insertAssoc s.outgoing_relocations nm tg })
        ∧ s2.pfx = s.pfx ∧ s2.nodes = s.nodes ∧ s2.chain = s.chain
        ∧ s2.messages = s.messages ∧ s2.incoming_relocations = s.incoming_relocations) := by
  have loopEmit : ∀ (k : Nat) (h : List Nat) (a : Action) (s2 : Section),
      (relocLoop s k h).1 = (some a, s2) →
      ∃ nm tg, a = Action.send (Message.relocateRequest nm tg)
        ∧ s2 = { s with outgoing_relocations := insertAssoc s.outgoing_relocations nm tg } := by
    intro k
    induction k with
    | zero =>
      intro h a s2 hEq
      simp [relocLoop] at hEq
    | succ n ih =>
      intro h a s2 hEq
      unfold relocLoop at hEq
      cases hcr : check_relocate s h with
      | some node_name =>
        rw [hcr] at hEq
        simp at hEq
        exact ⟨node_name, Hash.toName h, hEq.1.symm, hEq.2.symm⟩
      | none =>
        rw [hcr] at hEq
        simp at hEq
        exact ih (Hash.rehash h) a s2 hEq
  unfold try_relocate try_relocate_instr
  by_cases h1 : s.pfx = Prefix.empty
  · rw [if_pos h1]
    refine ⟨fun _ => rfl, fun _ => rfl, ?_⟩
    intro a s2 hEq
    simp at hEq
  · rw [if_neg h1]
    by_cases h2 : count_adults p s.nodes ≤ p.group_size
    · rw [if_pos h2]
      refine ⟨fun _ => rfl, fun _ => rfl, ?_⟩
      intro a s2 hEq
      simp at hEq
    · rw [if_neg h2]
      by_cases h3 : s.outgoing_relocations = []
      · rw [if_neg (not_not_intro h3)]
        refine ⟨fun hne => absurd h3 hne, fun hc => absurd hc h2, ?_⟩
        intro a s2 hEq
        obtain ⟨nm, tg, ha, hs⟩ := loopEmit p.max_relocation_attempts b.hash a s2 hEq
        refine ⟨⟨nm, tg, ha, hs⟩, ?_, ?_, ?_, ?_, ?_⟩ <;> rw [hs]
      · rw [if_pos h3]
        refine ⟨fun _ => rfl, fun hc => absurd hc h2, ?_⟩
        intro a s2 hEq
        simp at hEq

/-- Witness for C2 at a concrete input: a pending outgoing relocation
suppresses any new relocation request. -/
theorem c2_try_relocate_guards_witness :
    try_relocate paramsG2 sectionPendingOut blockLive10 = (none, sectionPendingOut) :=
  (c2_try_relocate_guards paramsG2 sectionPendingOut blockLive10).1 (by decide)

/-- A section whose members all have age above 255 never has a relocation
candidate: the `u8`-cast trailing zero count is below 256. -/
theorem check_relocate_none_of_old_members (s : Section) (h : List Nat)
    (hold : ∀ n ∈ s.nodes, 255 < n.age) : check_relocate s h = none := by
  have hcand : relocation_candidates s h = [] := by
    unfold relocation_candidates
    simp only [List.filter_eq_nil_iff, decide_eq_true_eq]
    intro n hn
    have h1 := hold n hn
    have h2 : Hash.trailing_zeros h % 256 < 256 := Nat.mod_lt _ (by norm_num)
    omega
  unfold check_relocate
  rw [hcand]
  rfl

/-- Claim C7 counterexample: for a section with an outstanding outgoing
relocation (and no members at all, so no candidate exists at any of the
`max_relocation_attempts = 5` hashes), `try_relocate` returns no action
and leaves the section unchanged, but performs 0 rehashes, not
`max_relocation_attempts`. -/
theorem c7_counterexample :
    check_relocate sectionPendingOut (rehashIter 0 blockLive10.hash) = none
    ∧ check_relocate sectionPendingOut (rehashIter 1 blockLive10.hash) = none
    ∧ check_relocate sectionPendingOut (rehashIter 2 blockLive10.hash) = none
    ∧ check_relocate sectionPendingOut (rehashIter 3 blockLive10.hash) = none
    ∧ check_relocate sectionPendingOut (rehashIter 4 blockLive10.hash) = none
    ∧ try_relocate_instr paramsG2 sectionPendingOut blockLive10 =
        ((none, sectionPendingOut), 0)
    ∧ paramsG2.max_relocation_attempts = 5
    ∧ (0 : Nat) ≠ 5 := by
  refine ⟨rfl, rfl, rfl, rfl, rfl, rfl, rfl, by decide⟩

/-- Claim C7 (amended): when the relocation guards pass (non-empty
prefix, more than `group_size` adults, no outstanding outgoing
relocation) and no candidate exists at any of the
`max_relocation_attempts` hashes derived from the live block, the loop
performs exactly `max_relocation_attempts` rehashes (one per failed
attempt), returns no action, and leaves the section (in particular
`outgoing_relocations`) unchanged — a normal outcome, not an error. -/
theorem c7_relocation_give_up (p : Params) (s : Section) (b : Block)
    (hpfx : s.pfx ≠ Prefix.empty)
    (hadults : p.group_size < count_adults p s.nodes)
    (hout : s.outgoing_relocations = [])
    (hnone : ∀ i < p.max_relocation_attempts,
      check_relocate s (rehashIter i b.hash) = none) :
    try_relocate_instr p s b = ((none, s), p.max_relocation_attempts) := by
  have main : ∀ (k : Nat) (h : List Nat),
      (∀ i < k, check_relocate s (rehashIter i h) = none) →
      relocLoop s k h = ((none, s), k) := by
    intro k
    induction k with
    | zero =>
      intro h _
      rfl
    | succ n ih =>
      intro h hn
      have h0 : check_relocate s h = none := by
        have := hn 0 (Nat.succ_pos n)
        simpa [rehashIter] using this
      have hr : relocLoop s n (Hash.rehash h) = ((none, s), n) := by
        apply ih
        intro i hi
        have := hn (i + 1) (by omega)
        simpa [rehashIter] using this
      unfold relocLoop
      rw [h0, hr]
  unfold try_relocate_instr
  rw [if_neg hpfx, if_neg (by omega), if_neg (not_not_intro hout)]
  exact main p.max_relocation_attempts b.hash hnone

/-- Witness for C7 at a concrete input: a three-member section whose ages
all exceed 255 gives up after exactly `max_relocation_attempts = 5`
rehashes. -/
theorem c7_relocation_give_up_witness :
    try_relocate_instr paramsG2 sectionOldMembers blockLive10 =
      ((none, sectionOldMembers), paramsG2.max_relocation_attempts) :=
  c7_relocation_give_up paramsG2 sectionOldMembers blockLive10 (by decide) (by decide)
    rfl (fun i _ => check_relocate_none_of_old_members sectionOldMembers
      (rehashIter i blockLive10.hash) (by decide))

/-- Claim C1 counterexample: with `group_size = 2`, `handle_live` admits
an infant (age 4) into a one-adult section and promotes it to elder, so
the elder names are `[1, 2]` while the spec's "`group_size` oldest adult
members" are just `[1]` — the computed elder set contains a non-adult and
is not the set the claim describes. -/
theorem c1_counterexample :
    handle_live paramsG2 sectionOneElder (Node.new 2 4) =
      Except.ok (none, ⟨⟨1, 0⟩, [⟨1, 5, true⟩, ⟨2, 4, true⟩],
        ⟨some (Block.new Event.live 2 4)⟩, [], [], [], false, false⟩)
    ∧ ¬ List.Perm
        ((([⟨1, 5, true⟩, ⟨2, 4, true⟩] : List Node).filter (fun n => n.elder)).map
          (fun n => n.name))
        (specOldestAdultNames paramsG2 [⟨1, 5, true⟩, ⟨2, 4, true⟩]) := by
  refine ⟨rfl, by decide⟩

/-- Claim C8: `Block::hash` is the SHA3-256 digest of exactly 17 bytes —
tag (Live=0, Dead=1, Gone=2), then the name and the age as little-endian
u64 — and on `Block{Live, name=0x0102030405060708, age=5}` it equals
SHA3-256 of the literal bytes of the claim. -/
theorem c8_block_hash_serialization :
    (∀ b : Block, b.bytes = specBlockBytes b.event b.name b.age
      ∧ b.bytes.length = 17
      ∧ b.hash = sha3_256 (specBlockBytes b.event b.name b.age))
    ∧ (Block.new Event.live 0x0102030405060708 5).hash =
        sha3_256 [0x00, 0x08, 0x07, 0x06, 0x05, 0x04, 0x03, 0x02, 0x01,
                  0x05, 0, 0, 0, 0, 0, 0, 0] := by
  have hbytes : ∀ b : Block, b.bytes = specBlockBytes b.event b.name b.age := by
    intro b
    obtain ⟨e, n, a⟩ := b
    simp [Block.bytes, specBlockBytes, leBytes, Nat.div_div_eq_div_mul]
  refine ⟨fun b => ⟨hbytes b, ?_, ?_⟩, ?_⟩
  · rw [hbytes b]
    obtain ⟨e, n, a⟩ := b
    simp [specBlockBytes]
  · rw [Block.hash, hbytes b]
  · rw [Block.hash]
    exact congrArg sha3_256 (by decide)

set_option maxHeartbeats 2000000 in
/-- Claim C10: for every 64-bit name `n`, `Hash::from(n)` places `n`
big-endian in the first 8 bytes (zeroing the rest) and `Into<Name>` reads
the first 8 bytes big-endian, so the round trip returns exactly `n`.
The proof unrolls the (at most 8 iteration) write loop. -/
theorem c10_name_hash_roundtrip (n : Nat) (hn : n < 2 ^ 64) :
    Hash.toName (Hash.fromName n) = n := by
  show Hash.toName (fromNameLoop 8 n 0
    [0,0,0,0,0,0,0,0,0,0,0,0,0,0,0,0,0,0,0,0,0,0,0,0,0,0,0,0,0,0,0,0]) = n
  simp only [fromNameLoop]
  split_ifs <;>
    simp_all only [List.set, Hash.toName, List.take, List.foldl] <;>
    simp_all [Nat.div_div_eq_div_mul] <;> omega

/-- Witness for C10 at a concrete name. -/
theorem c10_name_hash_roundtrip_witness :
    (74565 : Nat) < 2 ^ 64 ∧ Hash.toName (Hash.fromName 74565) = 74565 :=
  ⟨by norm_num, c10_name_hash_roundtrip 74565 (by norm_num)⟩

set_option maxRecDepth 40000 in
/-- Trailing zeros of a nonzero byte: `2 ^ z` divides it, `2 ^ (z + 1)`
does not, and `z < 8`. -/
theorem u8_tz_spec : ∀ b : Nat, b < 256 → b ≠ 0 →
    2 ^ (u8_trailing_zeros 8 b) ∣ b ∧ ¬ 2 ^ (u8_trailing_zeros 8 b + 1) ∣ b ∧
    u8_trailing_zeros 8 b < 8 := by decide

/-- A little-endian byte value is zero only if every byte is zero. -/
theorem leVal_zero : ∀ r : List Nat, leVal r = 0 → ∀ b ∈ r, b = 0 := by
  intro r
  induction r with
  | nil => intro _ b hb; cases hb
  | cons x rest ih =>
    intro h0 b hb
    have hx : leVal (x :: rest) = x + 256 * leVal rest := rfl
    rw [hx] at h0
    rcases List.mem_cons.mp hb with hbx | hbr
    · omega
    · exact ih (by omega) b hbr

/-- All-zero bytes give the little-endian value zero. -/
theorem leVal_of_zeros : ∀ r : List Nat, (∀ b ∈ r, b = 0) → leVal r = 0 := by
  intro r
  induction r with
  | nil => intro _; rfl
  | cons x rest ih =>
    intro hall
    have hx : leVal (x :: rest) = x + 256 * leVal rest := rfl
    have h1 : x = 0 := hall x (List.mem_cons_self x rest)
    have h2 : leVal rest = 0 := ih (fun b hb => hall b (List.mem_cons_of_mem x hb))
    rw [hx, h1, h2]

/-- Reading the reversed byte list big-endian is the little-endian value. -/
theorem beVal_reverse : ∀ r : List Nat, beVal r.reverse = leVal r := by
  intro r
  induction r with
  | nil => rfl
  | cons b rest ih =>
    have h1 : leVal (b :: rest) = b + 256 * leVal rest := rfl
    rw [List.reverse_cons]
    unfold beVal at *
    rw [List.foldl_append, h1]
    show (List.foldl (fun acc b => acc * 256 + b) 0 rest.reverse) * 256 + b = _
    rw [ih]
    ring

/-- The accumulated trailing-zero count of the byte-reversed hash is the
exact 2-adic valuation of its little-endian value. -/
theorem tz_list_dvd : ∀ r : List Nat, (∀ b ∈ r, b < 256) → leVal r ≠ 0 →
    2 ^ trailing_zeros_list r ∣ leVal r ∧ ¬ 2 ^ (trailing_zeros_list r + 1) ∣ leVal r := by
  intro r
  induction r with
  | nil => intro _ h0; exact absurd rfl h0
  | cons b rest ih =>
    intro hb hnz
    have hb0 : b < 256 := hb b (List.mem_cons_self b rest)
    have hlv : leVal (b :: rest) = b + 256 * leVal rest := rfl
    by_cases hbz : b = 0
    · subst hbz
      have htz : trailing_zeros_list (0 :: rest) = 8 + trailing_zeros_list rest := by
        simp [trailing_zeros_list]
        rfl
      have hM : leVal rest ≠ 0 := by
        intro h0
        apply hnz
        rw [hlv, h0]
      obtain ⟨hd, hnd⟩ := ih (fun x hx => hb x (List.mem_cons_of_mem _ hx)) hM
      constructor
      · rw [htz, hlv]
        have h8 : (256 : Nat) = 2 ^ 8 := by norm_num
        rw [h8, pow_add]
        simpa using mul_dvd_mul_left ((2:Nat) ^ 8) hd
      · rw [htz, hlv]
        intro hdvd
        apply hnd
        have h8 : (256 : Nat) = 2 ^ 8 := by norm_num
        rw [h8] at hdvd
        have hdvd2 : 2 ^ 8 * 2 ^ (trailing_zeros_list rest + 1) ∣ 2 ^ 8 * leVal rest := by
          have h9 : 8 + trailing_zeros_list rest + 1 = 8 + (trailing_zeros_list rest + 1) := by
            omega
          rw [h9, pow_add] at hdvd
          simpa using hdvd
        exact (mul_dvd_mul_iff_left (by positivity : (2:Nat) ^ 8 ≠ 0)).mp hdvd2
    · have hz := u8_tz_spec b hb0 hbz
      have htz : trailing_zeros_list (b :: rest) = u8_trailing_zeros 8 b := by
        simp [trailing_zeros_list, hz.2.2]
      constructor
      · rw [htz, hlv]
        apply Nat.dvd_add hz.1
        apply dvd_mul_of_dvd_left
        calc (2:Nat) ^ u8_trailing_zeros 8 b ∣ 2 ^ 8 := pow_dvd_pow 2 (le_of_lt hz.2.2)
        _ = 256 := by norm_num
      · rw [htz, hlv]
        intro hdvd
        apply hz.2.1
        have h256 : (2:Nat) ^ (u8_trailing_zeros 8 b + 1) ∣ 256 * leVal rest := by
          apply dvd_mul_of_dvd_left
          calc (2:Nat) ^ (u8_trailing_zeros 8 b + 1) ∣ 2 ^ 8 := pow_dvd_pow 2 (by omega)
          _ = 256 := by norm_num
        have := Nat.dvd_sub' hdvd h256
        simpa using this

/-- A hash with a nonzero byte has fewer than `8 * length` trailing zeros. -/
theorem tz_list_lt : ∀ r : List Nat, (∀ b ∈ r, b < 256) → (∃ b ∈ r, b ≠ 0) →
    trailing_zeros_list r < 8 * r.length := by
  intro r
  induction r with
  | nil =>
    intro _ hex
    obtain ⟨b, hb, _⟩ := hex
    cases hb
  | cons b rest ih =>
    intro hb hex
    by_cases hbz : b = 0
    · subst hbz
      have htz : trailing_zeros_list (0 :: rest) = 8 + trailing_zeros_list rest := by
        simp [trailing_zeros_list]
        rfl
      have hex2 : ∃ x ∈ rest, x ≠ 0 := by
        obtain ⟨x, hx, hxne⟩ := hex
        rcases List.mem_cons.mp hx with h0 | hr
        · exact absurd h0.symm (Ne.symm hxne)
        · exact ⟨x, hr, hxne⟩
      have := ih (fun x hx => hb x (List.mem_cons_of_mem _ hx)) hex2
      rw [htz]
      simp [List.length_cons]
      omega
    · have hz := u8_tz_spec b (hb b (List.mem_cons_self b rest)) hbz
      have htz : trailing_zeros_list (b :: rest) = u8_trailing_zeros 8 b := by
        simp [trailing_zeros_list, hz.2.2]
      rw [htz]
      simp [List.length_cons]
      have h8 : u8_trailing_zeros 8 b < 8 := hz.2.2
      omega

/-- Claim C6 (amended): for every 32-byte hash that is not all zeros,
`age ≤ trailing_zeros h` is equivalent to `2 ^ age` dividing the
big-endian value of `h`, and `relocation_candidates` is exactly the set
of members with `h mod 2 ^ age = 0`.  (For the all-zero hash both parts
fail: `trailing_zeros` is 256, the divisibility holds for every age, and
the `as u8` cast truncates 256 to 0.) -/
theorem c6_trailing_zeros_divisibility (s : Section) (h : List Nat)
    (hlen : h.length = 32) (hbytes : ∀ b ∈ h, b < 256)
    (hnz : h ≠ List.replicate 32 0) :
    (∀ a : Nat, a ≤ Hash.trailing_zeros h ↔ beVal h % 2 ^ a = 0)
    ∧ relocation_candidates s h =
        s.nodes.filter (fun node => beVal h % 2 ^ node.age = 0) := by
  have hrbytes : ∀ b ∈ h.reverse, b < 256 := by
    intro b hb
    exact hbytes b (List.mem_reverse.mp hb)
  have hN : beVal h = leVal h.reverse := by
    have := beVal_reverse h.reverse
    rwa [List.reverse_reverse] at this
  have hNnz : leVal h.reverse ≠ 0 := by
    intro h0
    apply hnz
    rw [List.eq_replicate_iff]
    refine ⟨hlen, ?_⟩
    intro b hb
    exact leVal_zero h.reverse h0 b (List.mem_reverse.mpr hb)
  obtain ⟨hd, hnd⟩ := tz_list_dvd h.reverse hrbytes hNnz
  have hiff : ∀ a : Nat, a ≤ Hash.trailing_zeros h ↔ beVal h % 2 ^ a = 0 := by
    intro a
    unfold Hash.trailing_zeros
    rw [hN]
    constructor
    · intro ha
      exact Nat.dvd_iff_mod_eq_zero.mp ((pow_dvd_pow 2 ha).trans hd)
    · intro hmod
      by_contra hgt
      push_neg at hgt
      apply hnd
      have hdvd : (2:Nat) ^ a ∣ leVal h.reverse := Nat.dvd_iff_mod_eq_zero.mpr hmod
      exact dvd_trans
        (pow_dvd_pow 2 (show trailing_zeros_list h.reverse + 1 ≤ a by omega)) hdvd
  refine ⟨hiff, ?_⟩
  have hex : ∃ b ∈ h.reverse, b ≠ 0 := by
    by_contra hno
    push_neg at hno
    exact hNnz (leVal_of_zeros h.reverse hno)
  have htzlt : Hash.trailing_zeros h < 256 := by
    have := tz_list_lt h.reverse hrbytes hex
    rwa [List.length_reverse, hlen] at this
  unfold relocation_candidates
  apply List.filter_congr
  intro node _
  rw [Nat.mod_eq_of_lt htzlt]
  simp only [decide_eq_decide]
  exact hiff node.age

/-- Witness for C6 at a concrete input: on the hash with 6 trailing zero
bits, the relocation candidates are exactly the members whose age divides
the hash value as a power of two. -/
theorem c6_trailing_zeros_divisibility_witness :
    (5 ≤ Hash.trailing_zeros hashSixZeros ↔ beVal hashSixZeros % 2 ^ 5 = 0)
    ∧ relocation_candidates sectionTwoAdults hashSixZeros =
        sectionTwoAdults.nodes.filter (fun node => beVal hashSixZeros % 2 ^ node.age = 0) :=
  ⟨(c6_trailing_zeros_divisibility sectionTwoAdults hashSixZeros (by decide) (by decide)
      (by decide)).1 5,
   (c6_trailing_zeros_divisibility sectionTwoAdults hashSixZeros (by decide) (by decide)
      (by decide)).2⟩

/-- Claim C1 (amended): after `update_elders` the elder flags mark
exactly the `min group_size n` oldest members of the section — ordered by
age with ties broken by name, larger names preferred (the code sorts by
`(age, name)` ascending, reverses, and takes `group_size`, without
filtering to adults) — so there are at most `group_size` elders, every
elder dominates every non-elder in `(age, name)`, and when the section
has at least `group_size` adults every elder is an adult.  `handle_live`,
`handle_dead`, `split` and `merge` all recompute elders through this
function. -/
theorem c1_update_elders_discipline (p : Params) (s : Section)
    (hnodup : (s.nodes.map Node.name).Nodup) :
    ((update_elders p s).nodes.filter (fun n => n.elder)).length
      = min p.group_size s.nodes.length
    ∧ (∀ a ∈ (update_elders p s).nodes, ∀ b ∈ (update_elders p s).nodes,
        a.elder = true → b.elder = false →
        b.age < a.age ∨ (b.age = a.age ∧ b.name < a.name))
    ∧ (p.group_size ≤ count_adults p s.nodes →
        ∀ a ∈ (update_elders p s).nodes, a.elder = true → a.is_adult p = true) := by
  classical
  set L : List Node := (by_age s.nodes).reverse with hLdef
  set newNames : List Nat := (L.take p.group_size).map (fun n => n.name) with hnewdef
  set oldNames : List Nat := (s.nodes.filter (fun n => n.elder)).map (fun n => n.name)
    with holddef
  set f : Node → Node := fun node =>
      if oldNames.contains node.name && !(newNames.contains node.name) then
        { node with elder := false }
      else if newNames.contains node.name && !(oldNames.contains node.name) then
        { node with elder := true }
      else node with hfdef
  have hnodes : (update_elders p s).nodes = s.nodes.map f := rfl
  have h1 : List.Perm (by_age s.nodes) s.nodes := List.perm_insertionSort nodeLe s.nodes
  have h2 : List.Perm L (by_age s.nodes) := List.reverse_perm (by_age s.nodes)
  have hperm : List.Perm s.nodes L := (h2.trans h1).symm
  have hnodupN : s.nodes.Nodup := hnodup.of_map
  have hLnodup : L.Nodup := hperm.nodup_iff.mp hnodupN
  have hinj := List.inj_on_of_nodup_map hnodup
  have hmemNew : ∀ nd ∈ s.nodes, (newNames.contains nd.name = true ↔
      nd ∈ L.take p.group_size) := by
    intro nd hnd
    constructor
    · intro hc
      have hmem : nd.name ∈ newNames := by simpa using hc
      rw [hnewdef] at hmem
      obtain ⟨m, hm, hmname⟩ := List.mem_map.mp hmem
      have hmL : m ∈ L := List.mem_of_mem_take hm
      have hmS : m ∈ s.nodes := hperm.mem_iff.mpr hmL
      have hmeq : m = nd := hinj hmS hnd hmname
      rwa [hmeq] at hm
    · intro hmem
      have : nd.name ∈ newNames := by
        rw [hnewdef]
        exact List.mem_map.mpr ⟨nd, hmem, rfl⟩
      simpa using this
  have hfelder : ∀ nd ∈ s.nodes, (f nd).elder = newNames.contains nd.name := by
    intro nd hnd
    simp only [hfdef]
    cases hold : oldNames.contains nd.name <;> cases hnew : newNames.contains nd.name
    · rw [if_neg (by decide), if_neg (by decide)]
      cases helder : nd.elder
      · rfl
      · exfalso
        have hmem : nd.name ∈ oldNames := by
          rw [holddef]
          exact List.mem_map.mpr ⟨nd, List.mem_filter.mpr ⟨hnd, by rw [helder]⟩, rfl⟩
        have : oldNames.contains nd.name = true := by simpa using hmem
        rw [hold] at this
        cases this
    · rw [if_neg (by decide), if_pos (by decide)]
    · rw [if_pos (by decide)]
    · rw [if_neg (by decide), if_neg (by decide)]
      have hmem : nd.name ∈ oldNames := by simpa using hold
      rw [holddef] at hmem
      obtain ⟨m, hm, hmname⟩ := List.mem_map.mp hmem
      have hmS : m ∈ s.nodes := List.mem_of_mem_filter hm
      have hmeq : m = nd := hinj hmS hnd hmname
      have := List.of_mem_filter hm
      rw [hmeq] at this
      simpa using this
  have hfage : ∀ nd, (f nd).age = nd.age := by
    intro nd
    simp only [hfdef]
    split_ifs <;> rfl
  have hfname : ∀ nd, (f nd).name = nd.name := by
    intro nd
    simp only [hfdef]
    split_ifs <;> rfl
  have hsorted : List.Pairwise (fun x y => nodeLe y x) L := by
    rw [hLdef, List.pairwise_reverse]
    exact List.sorted_insertionSort nodeLe s.nodes
  have hrel : ∀ x ∈ L.take p.group_size, ∀ y ∈ L.drop p.group_size, nodeLe y x := by
    intro x hx y hy
    exact List.Sorted.rel_of_mem_take_of_mem_drop hsorted hx hy
  have hdisj : List.Disjoint (L.take p.group_size) (L.drop p.group_size) := by
    apply List.disjoint_of_nodup_append
    rwa [List.take_append_drop]
  refine ⟨?_, ?_, ?_⟩
  · -- part 1: elder count
    rw [hnodes, ← List.countP_eq_length_filter, List.countP_map]
    have hcongr : List.countP ((fun n => n.elder) ∘ f) s.nodes =
        List.countP (fun nd => newNames.contains nd.name) s.nodes := by
      apply List.countP_congr
      intro nd hnd
      simp only [Function.comp]
      rw [hfelder nd hnd]
    rw [hcongr, hperm.countP_eq]
    conv_lhs => rw [← List.take_append_drop p.group_size L]
    rw [List.countP_append]
    have htake : List.countP (fun nd => newNames.contains nd.name) (L.take p.group_size) =
        (L.take p.group_size).length := by
      rw [List.countP_eq_length]
      intro nd hnd
      have hndS : nd ∈ s.nodes := hperm.mem_iff.mpr (List.mem_of_mem_take hnd)
      exact (hmemNew nd hndS).mpr hnd
    have hdrop : List.countP (fun nd => newNames.contains nd.name)
        (L.drop p.group_size) = 0 := by
      rw [List.countP_eq_zero]
      intro nd hnd hc
      have hndS : nd ∈ s.nodes := hperm.mem_iff.mpr (List.mem_of_mem_drop hnd)
      have hndT : nd ∈ L.take p.group_size := (hmemNew nd hndS).mp hc
      exact hdisj hndT hnd
    rw [htake, hdrop, List.length_take]
    have hLlen : L.length = s.nodes.length := hperm.length_eq.symm
    rw [hLlen]
    omega
  · -- part 2: every elder dominates every non-elder in (age, name)
    intro a ha b hb haE hbE
    rw [hnodes] at ha hb
    obtain ⟨na, hna, rfl⟩ := List.mem_map.mp ha
    obtain ⟨nb, hnb, rfl⟩ := List.mem_map.mp hb
    rw [hfelder na hna] at haE
    rw [hfelder nb hnb] at hbE
    have hnaT : na ∈ L.take p.group_size := (hmemNew na hna).mp haE
    have hnbL : nb ∈ L := hperm.mem_iff.mp hnb
    have hnbD : nb ∈ L.drop p.group_size := by
      have hsplit : nb ∈ L.take p.group_size ++ L.drop p.group_size := by
        rwa [List.take_append_drop]
      rcases List.mem_append.mp hsplit with hT | hD
      · exfalso
        have := (hmemNew nb hnb).mpr hT
        rw [hbE] at this
        cases this
      · exact hD
    have hle : nodeLe nb na := hrel na hnaT nb hnbD
    have hnames : nb.name ≠ na.name := by
      intro hEq
      have hsame : nb = na := hinj hnb hna hEq
      rw [hsame] at hnbD
      exact hdisj hnaT hnbD
    rw [hfage na, hfage nb, hfname na, hfname nb]
    rcases hle with hlt | ⟨hEq, hle2⟩
    · exact Or.inl hlt
    · exact Or.inr ⟨hEq, lt_of_le_of_ne hle2 hnames⟩
  · -- part 3: with at least group_size adults, every elder is adult
    intro hGa a ha haE
    rw [hnodes] at ha
    obtain ⟨na, hna, rfl⟩ := List.mem_map.mp ha
    rw [hfelder na hna] at haE
    have hnaT : na ∈ L.take p.group_size := (hmemNew na hna).mp haE
    by_contra hcon
    have hinf : na.age < p.adult_age := by
      simp [Node.is_adult, hfage na] at hcon
      omega
    have hdropNotAdult : ∀ x ∈ L.drop p.group_size, ¬ ((fun n => n.is_adult p) x = true) := by
      intro x hx hxA
      have hlex := hrel na hnaT x hx
      have hxage : p.adult_age ≤ x.age := by simpa [Node.is_adult] using hxA
      rcases hlex with h | ⟨h, _⟩ <;> omega
    have hadultsCount : count_adults p s.nodes =
        List.countP (fun n => n.is_adult p) L := by
      unfold count_adults
      rw [← List.countP_eq_length_filter, hperm.countP_eq]
    rw [hadultsCount] at hGa
    have hsplitc : List.countP (fun n => n.is_adult p) L =
        List.countP (fun n => n.is_adult p) (L.take p.group_size) +
        List.countP (fun n => n.is_adult p) (L.drop p.group_size) := by
      conv_lhs => rw [← List.take_append_drop p.group_size L]
      rw [List.countP_append]
    have hdropZero : List.countP (fun n => n.is_adult p) (L.drop p.group_size) = 0 :=
      List.countP_eq_zero.mpr hdropNotAdult
    have htakeLen : (L.take p.group_size).length ≤ p.group_size := by
      rw [List.length_take]
      omega
    have hle1 : List.countP (fun n => n.is_adult p) (L.take p.group_size) ≤
        (L.take p.group_size).length := List.countP_le_length _
    have hfull : List.countP (fun n => n.is_adult p) (L.take p.group_size) =
        (L.take p.group_size).length := by
      omega
    have hall := List.countP_eq_length.mp hfull
    have hnaA := hall na hnaT
    simp [Node.is_adult] at hnaA
    omega

/-- Witness for C1 at a concrete input: both members of the two-adult
section become elders under `group_size = 2`. -/
theorem c1_update_elders_discipline_witness :
    ((update_elders paramsG2 sectionTwoAdults).nodes.filter (fun n => n.elder)).length
      = min paramsG2.group_size sectionTwoAdults.nodes.length :=
  (c1_update_elders_discipline paramsG2 sectionTwoAdults (by decide)).1

/-- Claim C6 counterexample: on the all-zero hash, the big-endian value 0
is divisible by `2 ^ 257` yet `257 ≤ trailing_zeros` fails (the count is
exactly 256), and a member of age 3 satisfies `h mod 2 ^ 3 = 0` but is
not a relocation candidate (the `as u8` cast truncates 256 to 0). -/
theorem c6_counterexample :
    beVal hashZero % 2 ^ 257 = 0
    ∧ Hash.trailing_zeros hashZero = 256
    ∧ ¬ (257 ≤ Hash.trailing_zeros hashZero)
    ∧ beVal hashZero % 2 ^ 3 = 0
    ∧ relocation_candidates sectionAgeThree hashZero = [] := by
  refine ⟨by decide, by decide, by decide, by decide, by decide⟩

end Datachains
